import Mathlib

/-!
Verification of the bencode encoding engine (`src/encoding/encodable.rs`).

The repository source under verification provides the `Encodable` trait and its
builtin impls.  The driver types (`Encoder`, `SingleItemEncoder`) are declared
in a sibling module that is not part of the provided sources, so their
behaviour is modelled here from the specification (wire format, depth counter,
error kinds); every definition carrying such a model says so in its doc
comment.  Byte sequences are modelled as `List Nat`, Rust integers as `Int`,
and each `impl Encodable for T` becomes a function from the model of `T` to
the emission tree `BValue` together with a `MAX_DEPTH` constant.
-/

namespace Bendy

/-- Byte sequences (`&[u8]` / `Vec<u8>` views) are modelled as lists of
naturals, one per byte. -/
abbrev Bytes := List Nat

/-- Modelled from the spec: the recoverable error kinds of the encoder
(`DepthLimitExceeded`, the driver-misuse kind covering
AlreadyFinalized/NotYetEmitted, and `UnderlyingWriteFailure`).  The concrete
error type is not in the provided sources; only the kinds are specified. -/
inductive EncError : Type where
  | depthLimitExceeded
  | driverMisuse
  | writeFailure
deriving DecidableEq

/-- Emission tree: one `BValue` records the sequence of emitter calls a value's
`encode` performs on its `SingleItemEncoder` slot.  `str` is an
`emit_str`/`emit_bytes` call, `int` an `emit_int` call, `list` an `emit_list`
body (one child per nested `emit`), `dict` an `emit_dict` body (one
`emit_pair(key_bytes, value)` per entry, in emission order). -/
inductive BValue : Type where
  | str (s : Bytes)
  | int (n : Int)
  | list (xs : List BValue)
  | dict (ps : List (Bytes × BValue))

/-- Decimal digits of a natural number as bytes, most significant first, no
leading zeros (`0` itself is the single byte `48`). -/
def decDigits (n : Nat) : Bytes := (Nat.toDigits 10 n).map Char.toNat

/-- Modelled from the spec: the byte-string token `<length>:<raw bytes>` with
decimal length (byte 58 is the colon). -/
def strToken (s : Bytes) : Bytes := decDigits s.length ++ 58 :: s

/-- Modelled from the spec: the integer token `i<decimal digits>e` with an
optional leading minus (bytes 105 = i, 45 = minus, 101 = e). -/
def intToken (n : Int) : Bytes :=
  105 :: (if n < 0 then 45 :: decDigits n.natAbs else decDigits n.toNat) ++ [101]

/-- Bytes of an ASCII string literal, used to write expected outputs and test
keys readably. -/
def asciiBytes (s : String) : Bytes := s.data.map Char.toNat

mutual

/-- Actual container nesting depth of an emission tree: leaves (strings and
integers) are 0, each list/dict level adds 1. -/
def BValue.depth : BValue → Nat
  | .str _ => 0
  | .int _ => 0
  | .list xs => depthItems xs + 1
  | .dict ps => depthPairs ps + 1

/-- Maximum depth over the elements of a list body. -/
def depthItems : List BValue → Nat
  | [] => 0
  | x :: xs => max x.depth (depthItems xs)

/-- Maximum depth over the values of a dict body (keys are byte strings and
contribute nothing). -/
def depthPairs : List (Bytes × BValue) → Nat
  | [] => 0
  | p :: ps => max p.2.depth (depthPairs ps)

end

mutual

/-- Modelled from the spec: the wire format of section 6, with no depth
ceiling.  Byte string `<len>:<bytes>`, integer `i<digits>e`, list
`l<element>*e` in iteration order (108 = l), dict `d<key><value>*e` with each
key emitted as a byte-string token (100 = d). -/
def encodePure : BValue → Bytes
  | .str s => strToken s
  | .int n => intToken n
  | .list xs => 108 :: itemsPure xs ++ [101]
  | .dict ps => 100 :: pairsPure ps ++ [101]

/-- Concatenated encodings of a list body, in order. -/
def itemsPure : List BValue → Bytes
  | [] => []
  | x :: xs => encodePure x ++ itemsPure xs

/-- Concatenated `<key><value>` encodings of a dict body, in order. -/
def pairsPure : List (Bytes × BValue) → Bytes
  | [] => []
  | (k, v) :: ps => strToken k ++ encodePure v ++ pairsPure ps

end

mutual

/-- Modelled from the spec: emission with the live depth counter of the
Driver/SingleItemEncoder (not in the provided sources).  `maxd` is the
configured ceiling, `d` the current depth.  Entering a list or dict increments
the counter and fails with `depthLimitExceeded` the moment the increment would
exceed the ceiling, before writing that container's body; leaves never touch
the counter.  Failure of any nested emission propagates upward unchanged. -/
def encodeVal (maxd d : Nat) : BValue → Except EncError Bytes
  | .str s => .ok (strToken s)
  | .int n => .ok (intToken n)
  | .list xs =>
    if maxd < d + 1 then .error .depthLimitExceeded
    else
      match encodeItems maxd (d + 1) xs with
      | .error e => .error e
      | .ok body => .ok (108 :: body ++ [101])
  | .dict ps =>
    if maxd < d + 1 then .error .depthLimitExceeded
    else
      match encodePairs maxd (d + 1) ps with
      | .error e => .error e
      | .ok body => .ok (100 :: body ++ [101])

/-- Depth-checked emission of the elements of a list body. -/
def encodeItems (maxd d : Nat) : List BValue → Except EncError Bytes
  | [] => .ok []
  | x :: xs =>
    match encodeVal maxd d x with
    | .error e => .error e
    | .ok bx =>
      match encodeItems maxd d xs with
      | .error e => .error e
      | .ok rest => .ok (bx ++ rest)

/-- Depth-checked emission of the pairs of a dict body; each key is written as
a byte-string token before its value. -/
def encodePairs (maxd d : Nat) : List (Bytes × BValue) → Except EncError Bytes
  | [] => .ok []
  | (k, v) :: ps =>
    match encodeVal maxd d v with
    | .error e => .error e
    | .ok bv =>
      match encodePairs maxd d ps with
      | .error e => .error e
      | .ok rest => .ok (strToken k ++ bv ++ rest)

end

/-- Modelled from the spec: one full Driver cycle — construct an `Encoder`
with ceiling `maxDepth`, run the single top-level emission of `v` starting at
depth 0, and finalize with `get_output`.  On failure no bytes are returned. -/
def Encoder.run (maxDepth : Nat) (v : BValue) : Except EncError Bytes :=
  encodeVal maxDepth 0 v

/-- Model of the default trait method `Encodable::to_bytes` (encodable.rs
lines 18-24): it builds a fresh `Encoder` whose ceiling is exactly the
implementing type's declared `MAX_DEPTH` constant (passed here as the first
argument) and runs the one emission of the value. -/
def to_bytes (MAX_DEPTH : Nat) (v : BValue) : Except EncError Bytes :=
  Encoder.run MAX_DEPTH v

/-- Keys of a dict emission, in emission order (other shapes have none). -/
def BValue.dictKeys : BValue → List Bytes
  | .dict ps => ps.map Prod.fst
  | _ => []

/-- Model of `impl Encodable for &str` (encodable.rs lines 65-71): `emit_str`
on the string's bytes. -/
def StrImpl.encode (s : Bytes) : BValue := .str s

/-- Declared constant of the `&str` impl. -/
def StrImpl.MAX_DEPTH : Nat := 0

/-- Model of `impl Encodable for String` (encodable.rs lines 73-79). -/
def StringImpl.encode (s : Bytes) : BValue := .str s

/-- Declared constant of the `String` impl. -/
def StringImpl.MAX_DEPTH : Nat := 0

/-- Model of the `impl_encodable_integer!` macro impl (encodable.rs lines
81-93), instantiated at u8 u16 u32 u64 usize i8 i16 i32 i64 isize: `emit_int`
on the value.  All ten instantiations share this one body. -/
def IntImpl.encode (n : Int) : BValue := .int n

/-- Declared constant of every integer impl (the macro writes 1, not 0). -/
def IntImpl.MAX_DEPTH : Nat := 1

/-- Model of `impl Encodable for &E` (encodable.rs lines 32-38): forwards to
`E::encode` on the referenced value. -/
def RefImpl.encode (enc : α → BValue) (x : α) : BValue := enc x

/-- Declared constant of the `&E` impl: `E::MAX_DEPTH` unchanged. -/
def RefImpl.MAX_DEPTH (e : Nat) : Nat := e

/-- Model of the `Box<E>` container: owns one value. -/
structure BoxT (α : Type u) : Type u where
  val : α

/-- Model of `impl Encodable for Box<E>` (encodable.rs lines 40-46): forwards
to `E::encode` on the boxed value. -/
def BoxImpl.encode (enc : α → BValue) (b : BoxT α) : BValue := enc b.val

/-- Declared constant of the `Box<E>` impl. -/
def BoxImpl.MAX_DEPTH (e : Nat) : Nat := e

/-- Model of the `Rc<E>` container: owns one shared value. -/
structure RcT (α : Type u) : Type u where
  val : α

/-- Model of `impl Encodable for Rc<E>` (encodable.rs lines 48-54). -/
def RcImpl.encode (enc : α → BValue) (r : RcT α) : BValue := enc r.val

/-- Declared constant of the `Rc<E>` impl. -/
def RcImpl.MAX_DEPTH (e : Nat) : Nat := e

/-- Model of the `Arc<E>` container: owns one shared value. -/
structure ArcT (α : Type u) : Type u where
  val : α

/-- Model of `impl Encodable for Arc<E>` (encodable.rs lines 56-62). -/
def ArcImpl.encode (enc : α → BValue) (a : ArcT α) : BValue := enc a.val

/-- Declared constant of the `Arc<E>` impl. -/
def ArcImpl.MAX_DEPTH (e : Nat) : Nat := e

/-- Model of the `impl_encodable_iterable!` macro impl for `Vec<ContentT>`
(encodable.rs lines 95-117): `emit_list`, emitting each element in iteration
order via the recursive `emit`. -/
def VecImpl.encode (enc : α → BValue) (xs : List α) : BValue := .list (xs.map enc)

/-- Declared constant of the `Vec<ContentT>` impl: `ContentT::MAX_DEPTH + 1`. -/
def VecImpl.MAX_DEPTH (c : Nat) : Nat := c + 1

/-- Model of the `impl_encodable_iterable!` macro impl for
`VecDeque<ContentT>` (same macro body as `Vec`). -/
def VecDequeImpl.encode (enc : α → BValue) (xs : List α) : BValue := .list (xs.map enc)

/-- Declared constant of the `VecDeque<ContentT>` impl. -/
def VecDequeImpl.MAX_DEPTH (c : Nat) : Nat := c + 1

/-- Model of the `impl_encodable_iterable!` macro impl for
`LinkedList<ContentT>` (same macro body as `Vec`). -/
def LinkedListImpl.encode (enc : α → BValue) (xs : List α) : BValue := .list (xs.map enc)

/-- Declared constant of the `LinkedList<ContentT>` impl. -/
def LinkedListImpl.MAX_DEPTH (c : Nat) : Nat := c + 1

/-- Model of `impl Encodable for &[ContentT]` (encodable.rs lines 119-135):
`emit_list` over the slice in order. -/
def SliceImpl.encode (enc : α → BValue) (xs : List α) : BValue := .list (xs.map enc)

/-- Declared constant of the `&[ContentT]` impl. -/
def SliceImpl.MAX_DEPTH (c : Nat) : Nat := c + 1

/-- Model of `impl Encodable for BTreeMap<K, V>` (encodable.rs lines 137-150):
`emit_dict`, emitting `emit_pair(k.as_ref(), v)` for each entry in the map's
natural iteration order.  A `BTreeMap` is modelled as its iteration sequence
of (key bytes, value) pairs; the tree invariant (keys strictly ascending) is a
hypothesis of the theorems that need it.  Keys are modelled by their
`as_ref` byte view. -/
def BTreeMapImpl.encode (enc : α → BValue) (ps : List (Bytes × α)) : BValue :=
  .dict (ps.map fun p => (p.1, enc p.2))

/-- Declared constant of the `BTreeMap<K, V>` impl: `V::MAX_DEPTH + 1`. -/
def BTreeMapImpl.MAX_DEPTH (v : Nat) : Nat := v + 1

/-- Model of `pairs.sort_by_key(|&(k, _)| k)` in the `HashMap` impl: a stable
sort of the collected pairs by the lexicographic byte order of the keys
(`≤` on `List Nat` is exactly the `&[u8]` ordering: shorter prefixes first). -/
def HashMapImpl.sortByKey (ps : List (Bytes × α)) : List (Bytes × α) :=
  List.insertionSort (fun p q => p.1 ≤ q.1) ps

/-- Model of `impl Encodable for HashMap<K, V, S>` (encodable.rs lines
152-175): collect the (key bytes, value) pairs of the map's arbitrary
iteration order, sort them by raw key bytes, then `emit_dict` in sorted
order.  A `HashMap` is modelled as its iteration sequence of pairs; the map
invariant (no duplicate keys) is a hypothesis of the theorems that need it. -/
def HashMapImpl.encode (enc : α → BValue) (ps : List (Bytes × α)) : BValue :=
  .dict ((HashMapImpl.sortByKey ps).map fun p => (p.1, enc p.2))

/-- Declared constant of the `HashMap<K, V, S>` impl: `V::MAX_DEPTH + 1`. -/
def HashMapImpl.MAX_DEPTH (v : Nat) : Nat := v + 1

/-- Model of `impl Encodable for AsString<I>` (encodable.rs lines 177-187):
`emit_bytes` on the wrapped value's `as_ref` byte view.  The wrapped type's
own encoding function `innerEnc` is taken as an argument only to state that
the impl never consults it. -/
def AsStringImpl.encode (_innerEnc : α → BValue) (asRefBytes : α → Bytes) (x : α) : BValue :=
  .str (asRefBytes x)

/-- Declared constant of the `AsString<I>` impl. -/
def AsStringImpl.MAX_DEPTH : Nat := 1

/-- Model of the test record `Foo` and its hand-written `Encodable` impl
(encodable.rs lines 212-231): a dict with keys bar, baz, qux in that order,
where bar is a u32, baz a `Vec<String>` and qux a `Vec<u8>` emitted through
`AsString(&self.qux)`. -/
def Foo.encode (bar : Int) (baz : List Bytes) (qux : Bytes) : BValue :=
  .dict
    [ (asciiBytes "bar", IntImpl.encode bar),
      (asciiBytes "baz", VecImpl.encode StringImpl.encode baz),
      (asciiBytes "qux",
        AsStringImpl.encode
          (RefImpl.encode (VecImpl.encode fun b => IntImpl.encode (Int.ofNat b)))
          (fun q => q) qux) ]

/-- Declared constant of the `Foo` impl. -/
def Foo.MAX_DEPTH : Nat := 2

end Bendy

namespace Bendy

mutual

theorem encodeVal_ok : ∀ (maxd d : Nat) (v : BValue), d + v.depth ≤ maxd →
    encodeVal maxd d v = .ok (encodePure v)
  | _, _, .str s, _ => by simp [encodeVal, encodePure]
  | _, _, .int n, _ => by simp [encodeVal, encodePure]
  | maxd, d, .list xs, h => by
      have hd : d + 1 + depthItems xs ≤ maxd := by
        simp only [BValue.depth] at h; omega
      have hit := encodeItems_ok maxd (d + 1) xs hd
      simp only [encodeVal, encodePure, hit, if_neg (by omega : ¬ maxd < d + 1)]
  | maxd, d, .dict ps, h => by
      have hd : d + 1 + depthPairs ps ≤ maxd := by
        simp only [BValue.depth] at h; omega
      have hit := encodePairs_ok maxd (d + 1) ps hd
      simp only [encodeVal, encodePure, hit, if_neg (by omega : ¬ maxd < d + 1)]

theorem encodeItems_ok : ∀ (maxd d : Nat) (xs : List BValue), d + depthItems xs ≤ maxd →
    encodeItems maxd d xs = .ok (itemsPure xs)
  | _, _, [], _ => by simp [encodeItems, itemsPure]
  | maxd, d, x :: xs, h => by
      simp only [depthItems] at h
      have h1 := encodeVal_ok maxd d x (by omega)
      have h2 := encodeItems_ok maxd d xs (by omega)
      simp only [encodeItems, itemsPure, h1, h2]

theorem encodePairs_ok : ∀ (maxd d : Nat) (ps : List (Bytes × BValue)), d + depthPairs ps ≤ maxd →
    encodePairs maxd d ps = .ok (pairsPure ps)
  | _, _, [], _ => by simp [encodePairs, pairsPure]
  | maxd, d, (k, v) :: ps, h => by
      simp only [depthPairs] at h
      have h1 := encodeVal_ok maxd d v (by omega)
      have h2 := encodePairs_ok maxd d ps (by omega)
      simp only [encodePairs, pairsPure, h1, h2]

end

mutual

theorem encodeVal_err : ∀ (maxd d : Nat) (v : BValue), d ≤ maxd → maxd < d + v.depth →
    encodeVal maxd d v = .error .depthLimitExceeded
  | _, _, .str s, hd, h => by simp [BValue.depth] at h; omega
  | _, _, .int n, hd, h => by simp [BValue.depth] at h; omega
  | maxd, d, .list xs, hd, h => by
      simp only [BValue.depth] at h
      by_cases hc : maxd < d + 1
      · simp only [encodeVal, if_pos hc]
      · have hit := encodeItems_err maxd (d + 1) xs (by omega) (by omega)
        simp only [encodeVal, hit, if_neg hc]
  | maxd, d, .dict ps, hd, h => by
      simp only [BValue.depth] at h
      by_cases hc : maxd < d + 1
      · simp only [encodeVal, if_pos hc]
      · have hit := encodePairs_err maxd (d + 1) ps (by omega) (by omega)
        simp only [encodeVal, hit, if_neg hc]

theorem encodeItems_err : ∀ (maxd d : Nat) (xs : List BValue), d ≤ maxd → maxd < d + depthItems xs →
    encodeItems maxd d xs = .error .depthLimitExceeded
  | _, _, [], _, h => by simp [depthItems] at h; omega
  | maxd, d, x :: xs, hd, h => by
      simp only [depthItems] at h
      by_cases hx : maxd < d + x.depth
      · have h1 := encodeVal_err maxd d x hd hx
        simp only [encodeItems, h1]
      · have h1 := encodeVal_ok maxd d x (by omega)
        have h2 := encodeItems_err maxd d xs hd (by omega)
        simp only [encodeItems, h1, h2]

theorem encodePairs_err : ∀ (maxd d : Nat) (ps : List (Bytes × BValue)), d ≤ maxd → maxd < d + depthPairs ps →
    encodePairs maxd d ps = .error .depthLimitExceeded
  | _, _, [], _, h => by simp [depthPairs] at h; omega
  | maxd, d, (k, v) :: ps, hd, h => by
      simp only [depthPairs] at h
      by_cases hx : maxd < d + v.depth
      · have h1 := encodeVal_err maxd d v hd hx
        simp only [encodePairs, h1]
      · have h1 := encodeVal_ok maxd d v (by omega)
        have h2 := encodePairs_err maxd d ps hd (by omega)
        simp only [encodePairs, h1, h2]

end

instance instPairKeyLeDec {α : Type u} : DecidableRel (fun (p q : Bytes × α) => p.1 ≤ q.1) :=
  fun p q => inferInstanceAs (Decidable (p.1 ≤ q.1))

instance instPairKeyLeTotal {α : Type u} : IsTotal (Bytes × α) (fun p q => p.1 ≤ q.1) :=
  ⟨fun p q => le_total p.1 q.1⟩

instance instPairKeyLeTrans {α : Type u} : IsTrans (Bytes × α) (fun p q => p.1 ≤ q.1) :=
  ⟨fun _ _ _ h₁ h₂ => le_trans h₁ h₂⟩

instance instPairKeyLtAntisymm {α : Type u} : IsAntisymm (Bytes × α) (fun p q => p.1 < q.1) :=
  ⟨fun _ _ h₁ h₂ => absurd h₂ (lt_asymm h₁)⟩

theorem sortByKey_perm {α : Type u} (ps : List (Bytes × α)) :
    (HashMapImpl.sortByKey ps).Perm ps :=
  List.perm_insertionSort _ ps

theorem sortByKey_sorted_le {α : Type u} (ps : List (Bytes × α)) :
    List.Sorted (fun p q : Bytes × α => p.1 ≤ q.1) (HashMapImpl.sortByKey ps) :=
  List.sorted_insertionSort _ ps

theorem sortByKey_sorted_lt_pairs {α : Type u} (ps : List (Bytes × α))
    (h : (ps.map Prod.fst).Nodup) :
    List.Sorted (fun p q : Bytes × α => p.1 < q.1) (HashMapImpl.sortByKey ps) := by
  have hne : (HashMapImpl.sortByKey ps).Pairwise (fun p q => p.1 ≠ q.1) := by
    have hnd : ((HashMapImpl.sortByKey ps).map Prod.fst).Nodup :=
      ((sortByKey_perm ps).map Prod.fst).nodup_iff.mpr h
    exact List.pairwise_map.mp hnd
  exact ((sortByKey_sorted_le ps).and hne).imp fun hab => lt_of_le_of_ne hab.1 hab.2

theorem sortByKey_keys_sorted_lt {α : Type u} (ps : List (Bytes × α))
    (h : (ps.map Prod.fst).Nodup) :
    List.Sorted (fun a b : Bytes => a < b) ((HashMapImpl.sortByKey ps).map Prod.fst) :=
  List.Pairwise.map Prod.fst (fun _ _ hab => hab) (sortByKey_sorted_lt_pairs ps h)

theorem sortByKey_eq_of_perm {α : Type u} (l₁ l₂ : List (Bytes × α)) (hp : l₁.Perm l₂)
    (hn : (l₁.map Prod.fst).Nodup) :
    HashMapImpl.sortByKey l₁ = HashMapImpl.sortByKey l₂ := by
  have hn₂ : (l₂.map Prod.fst).Nodup := ((hp.map Prod.fst).nodup_iff).mp hn
  have hperm : (HashMapImpl.sortByKey l₁).Perm (HashMapImpl.sortByKey l₂) :=
    ((sortByKey_perm l₁).trans hp).trans (sortByKey_perm l₂).symm
  exact List.eq_of_perm_of_sorted hperm (sortByKey_sorted_lt_pairs l₁ hn)
    (sortByKey_sorted_lt_pairs l₂ hn₂)

theorem depthItems_map_le {α : Type u} (enc : α → BValue) (dE : Nat)
    (henc : ∀ x, (enc x).depth ≤ dE) : ∀ xs : List α, depthItems (xs.map enc) ≤ dE
  | [] => Nat.zero_le _
  | x :: xs => by
      simp only [List.map_cons, depthItems]
      exact max_le (henc x) (depthItems_map_le enc dE henc xs)

theorem depthPairs_map_le {α : Type u} (enc : α → BValue) (dE : Nat)
    (henc : ∀ x, (enc x).depth ≤ dE) :
    ∀ ps : List (Bytes × α), depthPairs (ps.map fun p => (p.1, enc p.2)) ≤ dE
  | [] => Nat.zero_le _
  | p :: ps => by
      simp only [List.map_cons, depthPairs]
      exact max_le (henc p.2) (depthPairs_map_le enc dE henc ps)

theorem itemsPure_map {α : Type u} (enc : α → BValue) :
    ∀ xs : List α, itemsPure (xs.map enc) = (xs.map fun x => encodePure (enc x)).flatten
  | [] => rfl
  | x :: xs => by
      simp only [List.map_cons, itemsPure, List.flatten_cons, itemsPure_map enc xs]

end Bendy

namespace Bendy

theorem listEnc_depth_le {α : Type u} (enc : α → BValue) (dE : Nat)
    (henc : ∀ x, (enc x).depth ≤ dE) (l : List α) :
    (BValue.list (l.map enc)).depth ≤ dE + 1 := by
  simp only [BValue.depth]
  have := depthItems_map_le enc dE henc l
  omega

theorem dictEnc_depth_le {α : Type u} (enc : α → BValue) (dE : Nat)
    (henc : ∀ x, (enc x).depth ≤ dE) (l : List (Bytes × α)) :
    (BValue.dict (l.map fun p => (p.1, enc p.2))).depth ≤ dE + 1 := by
  simp only [BValue.depth]
  have := depthPairs_map_le enc dE henc l
  omega

/-- Claim C1: encoding the record `Foo { bar: 5, baz: vec!["foo", "bar"], qux:
b"qux" }`, emitted as a dict with keys bar, baz, qux in that order, produces
exactly the byte sequence `d3:bari5e3:bazl3:foo3:bare3:qux3:quxe` (under any
Driver ceiling at or above the record's nesting depth 2, which covers the
default `Encoder::new()` used by the test). -/
theorem C1_simple_encodable_works (maxd : Nat) (h : 2 ≤ maxd) :
    Encoder.run maxd (Foo.encode 5 [asciiBytes "foo", asciiBytes "bar"] (asciiBytes "qux"))
      = .ok (asciiBytes "d3:bari5e3:bazl3:foo3:bare3:qux3:quxe") := by
  have hd : (Foo.encode 5 [asciiBytes "foo", asciiBytes "bar"] (asciiBytes "qux")).depth = 2 := by
    decide
  have hok := encodeVal_ok maxd 0
    (Foo.encode 5 [asciiBytes "foo", asciiBytes "bar"] (asciiBytes "qux")) (by omega)
  have hpure : encodePure (Foo.encode 5 [asciiBytes "foo", asciiBytes "bar"] (asciiBytes "qux"))
      = asciiBytes "d3:bari5e3:bazl3:foo3:bare3:qux3:quxe" := by decide
  simpa only [Encoder.run, hpure] using hok

/-- Witness for C1 at the concrete ceiling 2. -/
theorem C1_witness :
    2 ≤ 2
    ∧ Encoder.run 2 (Foo.encode 5 [asciiBytes "foo", asciiBytes "bar"] (asciiBytes "qux"))
      = .ok (asciiBytes "d3:bari5e3:bazl3:foo3:bare3:qux3:quxe") :=
  ⟨Nat.le_refl 2, C1_simple_encodable_works 2 (Nat.le_refl 2)⟩

/-- Claim C2: for every dictionary — a HashMap input with its arbitrary
iteration order and no duplicate keys, or a BTreeMap input iterating in its
strictly ascending natural order — the keys of the encoded dict appear in
strictly ascending byte-lexicographic order. -/
theorem C2_dict_keys_strictly_ascending {α : Type u} (enc : α → BValue)
    (ps : List (Bytes × α)) :
    ((ps.map Prod.fst).Nodup →
      List.Sorted (fun a b : Bytes => a < b) (HashMapImpl.encode enc ps).dictKeys)
    ∧ (List.Sorted (fun a b : Bytes => a < b) (ps.map Prod.fst) →
      List.Sorted (fun a b : Bytes => a < b) (BTreeMapImpl.encode enc ps).dictKeys) := by
  constructor
  · intro hn
    have hkeys : (HashMapImpl.encode enc ps).dictKeys
        = (HashMapImpl.sortByKey ps).map Prod.fst := by
      simp [HashMapImpl.encode, BValue.dictKeys, List.map_map, Function.comp]
    rw [hkeys]
    exact sortByKey_keys_sorted_lt ps hn
  · intro hs
    have hkeys : (BTreeMapImpl.encode enc ps).dictKeys = ps.map Prod.fst := by
      simp [BTreeMapImpl.encode, BValue.dictKeys, List.map_map, Function.comp]
    rw [hkeys]
    exact hs

/-- Witness for C2 on the concrete two-entry maps with keys b, a (HashMap
iteration order) and a, b (BTreeMap order). -/
theorem C2_witness :
    List.Sorted (fun a b : Bytes => a < b)
      (HashMapImpl.encode (fun n : Nat => BValue.int n)
        [(asciiBytes "b", 1), (asciiBytes "a", 2)]).dictKeys
    ∧ List.Sorted (fun a b : Bytes => a < b)
      (BTreeMapImpl.encode (fun n : Nat => BValue.int n)
        [(asciiBytes "a", 2), (asciiBytes "b", 1)]).dictKeys :=
  ⟨(C2_dict_keys_strictly_ascending (fun n : Nat => BValue.int n)
      [(asciiBytes "b", 1), (asciiBytes "a", 2)]).1 (by decide),
   (C2_dict_keys_strictly_ascending (fun n : Nat => BValue.int n)
      [(asciiBytes "a", 2), (asciiBytes "b", 1)]).2 (by decide)⟩

/-- Claim C3: encoding is deterministic — two HashMaps holding the same
(key, value) pairs but iterated in different (insertion-dependent) orders
produce the same emission tree, hence byte-identical output under every
ceiling. -/
theorem C3_hashmap_deterministic {α : Type u} (enc : α → BValue)
    (l₁ l₂ : List (Bytes × α)) (hp : l₁.Perm l₂) (hn : (l₁.map Prod.fst).Nodup)
    (maxd : Nat) :
    HashMapImpl.encode enc l₁ = HashMapImpl.encode enc l₂
    ∧ Encoder.run maxd (HashMapImpl.encode enc l₁)
      = Encoder.run maxd (HashMapImpl.encode enc l₂) := by
  have h := sortByKey_eq_of_perm l₁ l₂ hp hn
  exact ⟨by simp [HashMapImpl.encode, h], by simp [HashMapImpl.encode, h]⟩

/-- Witness for C3 on two concrete insertion orders of the same two pairs. -/
theorem C3_witness :
    HashMapImpl.encode (fun n : Nat => BValue.int n)
      [(asciiBytes "b", 1), (asciiBytes "a", 2)]
    = HashMapImpl.encode (fun n : Nat => BValue.int n)
      [(asciiBytes "a", 2), (asciiBytes "b", 1)] :=
  (C3_hashmap_deterministic (fun n : Nat => BValue.int n)
    [(asciiBytes "b", 1), (asciiBytes "a", 2)]
    [(asciiBytes "a", 2), (asciiBytes "b", 1)] (by decide) (by decide) 2).1

/-- Claim C4: under a Driver configured with ceiling `maxd`, a value whose
actual container nesting exceeds the ceiling fails with `depthLimitExceeded`
(the result is an error, so no output bytes are produced), and a value whose
nesting is at or below the ceiling encodes successfully. -/
theorem C4_depth_enforcement (v : BValue) (maxd : Nat) :
    (maxd < v.depth → Encoder.run maxd v = .error .depthLimitExceeded)
    ∧ (v.depth ≤ maxd → Encoder.run maxd v = .ok (encodePure v)) :=
  ⟨fun h => encodeVal_err maxd 0 v (Nat.zero_le _) (by omega),
   fun h => encodeVal_ok maxd 0 v (by omega)⟩

/-- Witness for C4: the doubly nested empty list (depth 2) fails under
ceiling 1 and encodes to `llee` under ceiling 2. -/
theorem C4_witness :
    Encoder.run 1 (BValue.list [BValue.list []]) = .error .depthLimitExceeded
    ∧ Encoder.run 2 (BValue.list [BValue.list []]) = .ok [108, 108, 101, 101] :=
  ⟨(C4_depth_enforcement (BValue.list [BValue.list []]) 1).1 (by decide),
   (C4_depth_enforcement (BValue.list [BValue.list []]) 2).2 (by decide)⟩

/-- Claim C5 (counterexample): the claim states that every builtin fixed-width
integer type declares `MAX_DEPTH = 0`, but the source's
`impl_encodable_integer!` macro declares `MAX_DEPTH = 1` for all ten integer
types. -/
theorem C5_counterexample : ¬ IntImpl.MAX_DEPTH = 0 := by decide

/-- Claim C5 (amended): the builtin string impls declare `MAX_DEPTH = 0` while
the builtin integer impls declare `MAX_DEPTH = 1`; both kinds of leaves
contribute 0 actual container levels to any encoding. -/
theorem C5_leaf_depths :
    StrImpl.MAX_DEPTH = 0 ∧ StringImpl.MAX_DEPTH = 0 ∧ IntImpl.MAX_DEPTH = 1
    ∧ (∀ s, (StrImpl.encode s).depth = 0) ∧ (∀ s, (StringImpl.encode s).depth = 0)
    ∧ (∀ n, (IntImpl.encode n).depth = 0) :=
  ⟨rfl, rfl, rfl, fun _ => rfl, fun _ => rfl, fun _ => rfl⟩

/-- Claim C6: for every builtin impl and every instance, the declared
`MAX_DEPTH` is at least the actual nesting depth of the produced emission; for
the generic impls the element (or value) encoding is any function whose
emissions respect the inner declared bound `dE`. -/
theorem C6_max_depth_bounds_actual_depth {α : Type u} (enc : α → BValue) (dE : Nat)
    (henc : ∀ x, (enc x).depth ≤ dE) :
    (∀ s, (StrImpl.encode s).depth ≤ StrImpl.MAX_DEPTH)
    ∧ (∀ s, (StringImpl.encode s).depth ≤ StringImpl.MAX_DEPTH)
    ∧ (∀ n, (IntImpl.encode n).depth ≤ IntImpl.MAX_DEPTH)
    ∧ (∀ x, (RefImpl.encode enc x).depth ≤ RefImpl.MAX_DEPTH dE)
    ∧ (∀ b, (BoxImpl.encode enc b).depth ≤ BoxImpl.MAX_DEPTH dE)
    ∧ (∀ r, (RcImpl.encode enc r).depth ≤ RcImpl.MAX_DEPTH dE)
    ∧ (∀ a, (ArcImpl.encode enc a).depth ≤ ArcImpl.MAX_DEPTH dE)
    ∧ (∀ xs, (VecImpl.encode enc xs).depth ≤ VecImpl.MAX_DEPTH dE)
    ∧ (∀ xs, (VecDequeImpl.encode enc xs).depth ≤ VecDequeImpl.MAX_DEPTH dE)
    ∧ (∀ xs, (LinkedListImpl.encode enc xs).depth ≤ LinkedListImpl.MAX_DEPTH dE)
    ∧ (∀ xs, (SliceImpl.encode enc xs).depth ≤ SliceImpl.MAX_DEPTH dE)
    ∧ (∀ ps, (BTreeMapImpl.encode enc ps).depth ≤ BTreeMapImpl.MAX_DEPTH dE)
    ∧ (∀ ps, (HashMapImpl.encode enc ps).depth ≤ HashMapImpl.MAX_DEPTH dE)
    ∧ (∀ asRefBytes x, (AsStringImpl.encode enc asRefBytes x).depth ≤ AsStringImpl.MAX_DEPTH) :=
  ⟨fun _ => Nat.le_refl 0, fun _ => Nat.le_refl 0, fun _ => Nat.zero_le 1,
   fun x => henc x, fun b => henc b.val, fun r => henc r.val, fun a => henc a.val,
   fun xs => listEnc_depth_le enc dE henc xs,
   fun xs => listEnc_depth_le enc dE henc xs,
   fun xs => listEnc_depth_le enc dE henc xs,
   fun xs => listEnc_depth_le enc dE henc xs,
   fun ps => dictEnc_depth_le enc dE henc ps,
   fun ps => dictEnc_depth_le enc dE henc (HashMapImpl.sortByKey ps),
   fun _ _ => Nat.zero_le 1⟩

/-- Witness for C6: the `Vec` conjunct at a concrete one-element list of
integers whose element bound is 0. -/
theorem C6_witness :
    (VecImpl.encode (fun n : Nat => BValue.int n) [5]).depth ≤ VecImpl.MAX_DEPTH 0 :=
  (C6_max_depth_bounds_actual_depth (fun n : Nat => BValue.int n) 0
    (fun _ => Nat.le_refl 0)).2.2.2.2.2.2.2.1 [5]

/-- Claim C7: `Vec<T>`, `VecDeque<T>`, `LinkedList<T>` and `&[T]` declare
`MAX_DEPTH = T::MAX_DEPTH + 1` and encode as a list holding each element's
encoding in iteration order, and `BTreeMap<K, V>` / `HashMap<K, V>` declare
`MAX_DEPTH = V::MAX_DEPTH + 1`. -/
theorem C7_container_impls {α : Type u} (enc : α → BValue) (dT dV : Nat) (xs : List α) :
    VecImpl.MAX_DEPTH dT = dT + 1 ∧ VecDequeImpl.MAX_DEPTH dT = dT + 1
    ∧ LinkedListImpl.MAX_DEPTH dT = dT + 1 ∧ SliceImpl.MAX_DEPTH dT = dT + 1
    ∧ BTreeMapImpl.MAX_DEPTH dV = dV + 1 ∧ HashMapImpl.MAX_DEPTH dV = dV + 1
    ∧ VecImpl.encode enc xs = .list (xs.map enc)
    ∧ VecDequeImpl.encode enc xs = .list (xs.map enc)
    ∧ LinkedListImpl.encode enc xs = .list (xs.map enc)
    ∧ SliceImpl.encode enc xs = .list (xs.map enc)
    ∧ encodePure (VecImpl.encode enc xs)
        = 108 :: (xs.map fun x => encodePure (enc x)).flatten ++ [101] := by
  refine ⟨rfl, rfl, rfl, rfl, rfl, rfl, rfl, rfl, rfl, rfl, ?_⟩
  simp only [VecImpl.encode, encodePure, itemsPure_map]

/-- Claim C8: the forwarding impls for `&E`, `Box<E>`, `Rc<E>` and `Arc<E>`
produce the same emission tree as encoding the wrapped value directly — hence
byte-identical output under every ceiling — and declare the same `MAX_DEPTH`
as `E`. -/
theorem C8_forwarding_transparent {α : Type u} (enc : α → BValue) (x : α) (dE maxd : Nat) :
    RefImpl.encode enc x = enc x
    ∧ BoxImpl.encode enc ⟨x⟩ = enc x
    ∧ RcImpl.encode enc ⟨x⟩ = enc x
    ∧ ArcImpl.encode enc ⟨x⟩ = enc x
    ∧ RefImpl.MAX_DEPTH dE = dE ∧ BoxImpl.MAX_DEPTH dE = dE
    ∧ RcImpl.MAX_DEPTH dE = dE ∧ ArcImpl.MAX_DEPTH dE = dE
    ∧ Encoder.run maxd (RefImpl.encode enc x) = Encoder.run maxd (enc x)
    ∧ Encoder.run maxd (BoxImpl.encode enc ⟨x⟩) = Encoder.run maxd (enc x)
    ∧ Encoder.run maxd (RcImpl.encode enc ⟨x⟩) = Encoder.run maxd (enc x)
    ∧ Encoder.run maxd (ArcImpl.encode enc ⟨x⟩) = Encoder.run maxd (enc x) :=
  ⟨rfl, rfl, rfl, rfl, rfl, rfl, rfl, rfl, rfl, rfl, rfl, rfl⟩

/-- Claim C9: `AsString(inner)` always emits exactly one length-prefixed
byte-string token holding the inner bytes — never a list of integer tokens —
regardless of the encoding the inner type itself has; concretely `AsString`
around the byte buffer b"qux" yields `3:qux` while `Vec<u8>`'s own impl yields
the integer list `li113ei117ei120ee`. -/
theorem C9_asstring_single_token {α : Type u} (innerEnc : α → BValue)
    (asRefBytes : α → Bytes) (x : α) (maxd d : Nat) :
    AsStringImpl.encode innerEnc asRefBytes x = .str (asRefBytes x)
    ∧ (∀ l, AsStringImpl.encode innerEnc asRefBytes x ≠ .list l)
    ∧ encodeVal maxd d (AsStringImpl.encode innerEnc asRefBytes x)
        = .ok (strToken (asRefBytes x))
    ∧ encodePure (AsStringImpl.encode (VecImpl.encode fun b => IntImpl.encode (Int.ofNat b))
        (fun q => q) (asciiBytes "qux")) = asciiBytes "3:qux"
    ∧ encodePure (VecImpl.encode (fun b => IntImpl.encode (Int.ofNat b)) (asciiBytes "qux"))
        = asciiBytes "li113ei117ei120ee"
    ∧ asciiBytes "3:qux" ≠ asciiBytes "li113ei117ei120ee" :=
  ⟨rfl, fun _ h => BValue.noConfusion h, rfl, by decide, by decide, by decide⟩

/-- Witness for C9 at a concrete inner buffer. -/
theorem C9_witness :
    AsStringImpl.encode (VecImpl.encode fun b => IntImpl.encode (Int.ofNat b)) (fun q => q)
      (asciiBytes "qux") ≠ BValue.list [] :=
  (C9_asstring_single_token (VecImpl.encode fun b => IntImpl.encode (Int.ofNat b))
    (fun q => q) (asciiBytes "qux") 1 0).2.1 []

/-- Claim C10: `to_bytes` drives a fresh Encoder whose ceiling is exactly the
type's declared `MAX_DEPTH`; every builtin impl's actual nesting stays within
its declared constant, so `to_bytes` on a builtin value never takes the
depth-limit branch and returns the encoded bytes (buffer writes in the model
always succeed). -/
theorem C10_to_bytes_builtin_never_depth_limited {α : Type u} (enc : α → BValue) (dE : Nat)
    (henc : ∀ x, (enc x).depth ≤ dE) :
    (∀ s, to_bytes StrImpl.MAX_DEPTH (StrImpl.encode s) = .ok (encodePure (StrImpl.encode s)))
    ∧ (∀ s, to_bytes StringImpl.MAX_DEPTH (StringImpl.encode s)
        = .ok (encodePure (StringImpl.encode s)))
    ∧ (∀ n, to_bytes IntImpl.MAX_DEPTH (IntImpl.encode n) = .ok (encodePure (IntImpl.encode n)))
    ∧ (∀ x, to_bytes (RefImpl.MAX_DEPTH dE) (RefImpl.encode enc x) = .ok (encodePure (enc x)))
    ∧ (∀ b : BoxT α, to_bytes (BoxImpl.MAX_DEPTH dE) (BoxImpl.encode enc b)
        = .ok (encodePure (enc b.val)))
    ∧ (∀ r : RcT α, to_bytes (RcImpl.MAX_DEPTH dE) (RcImpl.encode enc r)
        = .ok (encodePure (enc r.val)))
    ∧ (∀ a : ArcT α, to_bytes (ArcImpl.MAX_DEPTH dE) (ArcImpl.encode enc a)
        = .ok (encodePure (enc a.val)))
    ∧ (∀ xs, to_bytes (VecImpl.MAX_DEPTH dE) (VecImpl.encode enc xs)
        = .ok (encodePure (VecImpl.encode enc xs)))
    ∧ (∀ xs, to_bytes (VecDequeImpl.MAX_DEPTH dE) (VecDequeImpl.encode enc xs)
        = .ok (encodePure (VecDequeImpl.encode enc xs)))
    ∧ (∀ xs, to_bytes (LinkedListImpl.MAX_DEPTH dE) (LinkedListImpl.encode enc xs)
        = .ok (encodePure (LinkedListImpl.encode enc xs)))
    ∧ (∀ xs, to_bytes (SliceImpl.MAX_DEPTH dE) (SliceImpl.encode enc xs)
        = .ok (encodePure (SliceImpl.encode enc xs)))
    ∧ (∀ ps, to_bytes (BTreeMapImpl.MAX_DEPTH dE) (BTreeMapImpl.encode enc ps)
        = .ok (encodePure (BTreeMapImpl.encode enc ps)))
    ∧ (∀ ps, to_bytes (HashMapImpl.MAX_DEPTH dE) (HashMapImpl.encode enc ps)
        = .ok (encodePure (HashMapImpl.encode enc ps)))
    ∧ (∀ asRefBytes x, to_bytes AsStringImpl.MAX_DEPTH (AsStringImpl.encode enc asRefBytes x)
        = .ok (encodePure (AsStringImpl.encode enc asRefBytes x))) :=
  ⟨fun s => encodeVal_ok 0 0 (StrImpl.encode s) (Nat.le_refl 0),
   fun s => encodeVal_ok 0 0 (StringImpl.encode s) (Nat.le_refl 0),
   fun n => encodeVal_ok 1 0 (IntImpl.encode n) (Nat.zero_le 1),
   fun x => encodeVal_ok dE 0 (enc x) (by have := henc x; omega),
   fun b => encodeVal_ok dE 0 (enc b.val) (by have := henc b.val; omega),
   fun r => encodeVal_ok dE 0 (enc r.val) (by have := henc r.val; omega),
   fun a => encodeVal_ok dE 0 (enc a.val) (by have := henc a.val; omega),
   fun xs => encodeVal_ok (dE + 1) 0 (VecImpl.encode enc xs)
     (by have := listEnc_depth_le enc dE henc xs; simp only [VecImpl.encode]; omega),
   fun xs => encodeVal_ok (dE + 1) 0 (VecDequeImpl.encode enc xs)
     (by have := listEnc_depth_le enc dE henc xs; simp only [VecDequeImpl.encode]; omega),
   fun xs => encodeVal_ok (dE + 1) 0 (LinkedListImpl.encode enc xs)
     (by have := listEnc_depth_le enc dE henc xs; simp only [LinkedListImpl.encode]; omega),
   fun xs => encodeVal_ok (dE + 1) 0 (SliceImpl.encode enc xs)
     (by have := listEnc_depth_le enc dE henc xs; simp only [SliceImpl.encode]; omega),
   fun ps => encodeVal_ok (dE + 1) 0 (BTreeMapImpl.encode enc ps)
     (by have := dictEnc_depth_le enc dE henc ps; simp only [BTreeMapImpl.encode]; omega),
   fun ps => encodeVal_ok (dE + 1) 0 (HashMapImpl.encode enc ps)
     (by have := dictEnc_depth_le enc dE henc (HashMapImpl.sortByKey ps)
         simp only [HashMapImpl.encode]; omega),
   fun asRefBytes x => encodeVal_ok 1 0 (AsStringImpl.encode enc asRefBytes x) (Nat.zero_le 1)⟩

/-- Witness for C10: the `Vec` conjunct at a concrete one-element integer list
(element bound 1, matching the integer impls' declared constant). -/
theorem C10_witness :
    to_bytes (VecImpl.MAX_DEPTH 1) (VecImpl.encode (fun n : Nat => BValue.int n) [5])
      = .ok (encodePure (VecImpl.encode (fun n : Nat => BValue.int n) [5])) :=
  (C10_to_bytes_builtin_never_depth_limited (fun n : Nat => BValue.int n) 1
    (fun _ => Nat.zero_le 1)).2.2.2.2.2.2.2.1 [5]

end Bendy
